import Mathlib

/-!
Verification of the `nconv` base-conversion library (`src/lib.rs`).

Strings are embedded as `List Char`.  Rust `u128` arithmetic is embedded as
`Nat` with explicit reduction modulo `2 ^ 128` where the source can wrap, and
with the explicit bound checks that `checked_mul` / `checked_add` perform.
The 0x / 0o / 0b prefix detection, the digit parse loop, the render loop and
the two formatters (`pad_width`, `group_digits`) are translated line by line
from `src/lib.rs`.  Byte-based operations of the source (`String::len`,
`String::insert`) are embedded byte-faithfully via `Char.utf8Size`.
-/

/-- Supported number systems, `NumSystem` in `src/lib.rs` (discriminants
2, 8, 10, 16). -/
inductive NumSystem where
  | bin
  | oct
  | dec
  | hex
deriving DecidableEq, Repr

/-- Numeric value of the enum, the Rust cast `sys as u128`. -/
def NumSystem.val : NumSystem → ℕ
  | .bin => 2
  | .oct => 8
  | .dec => 10
  | .hex => 16

/-- Conversion failures, `ConversionError` in `src/lib.rs`. -/
inductive ConversionError where
  | invalidDigit (c : Char)
  | numberOverflow
  | invalidBase
deriving DecidableEq, Repr

/-- Configuration record, `Config` in `src/lib.rs`. -/
structure Config where
  src_base : NumSystem
  tgt_base : NumSystem
  number : List Char
  grouping : ℕ
  width : ℕ

/-- First value outside the `u128` range; `checked_mul` / `checked_add`
fail exactly when a result reaches this bound, and wrapping subtraction
reduces modulo it. -/
def u128Bound : ℕ := 2 ^ 128

/-- The digit table `"0123456789ABCDEF"` of `convert_base`. -/
def digits : List Char :=
  ['0', '1', '2', '3', '4', '5', '6', '7', '8', '9', 'A', 'B', 'C', 'D', 'E', 'F']

/-- Whether the lowercased input starts with `'0'` followed by the mark `m`
(`m` is `'x'`, `'o'` or `'b'`): the Rust test
`num.to_lowercase().as_str().starts_with("0?")`.  Rust lowercases with
Unicode rules, but no character other than `'0'` has a lowercase form
beginning with `'0'`, and only `'x'`/`'X'` (resp. `'o'`/`'O'`, `'b'`/`'B'`)
lowercase to `'x'` (resp. `'o'`, `'b'`), so the ASCII `Char.toLower`
is faithful for this test. -/
def hasMark (num : List Char) (m : Char) : Bool :=
  match num.map Char.toLower with
  | x :: y :: _ => x == '0' && y == m
  | _ => false

/-- Prefix handling of `convert_base` (`src/lib.rs` lines 144–152): the Rust
`match` tries its arms in order; a recognized prefix agreeing with the
declared source radix is stripped (two ASCII characters, hence `drop 2`
matches the byte slice `&num[2..]`), any other recognized prefix is an
`InvalidBase` error, and otherwise the string is kept whole. -/
def resolveRadix (num : List Char) (src : NumSystem) :
    Except ConversionError (List Char × Option NumSystem) :=
  if hasMark num 'x' ∧ src = NumSystem.hex then .ok (num.drop 2, some .hex)
  else if hasMark num 'o' ∧ src = NumSystem.oct then .ok (num.drop 2, some .oct)
  else if hasMark num 'b' ∧ src = NumSystem.bin then .ok (num.drop 2, some .bin)
  else if hasMark num 'x' ∨ hasMark num 'o' ∨ hasMark num 'b' then .error .invalidBase
  else .ok (num, none)

/-- Wrapping value of the letter branch
`(c.to_ascii_uppercase() as u128) - ('A' as u128) + 10` of `convert_base`:
`u128` subtraction wraps modulo `2 ^ 128` (release-profile semantics), and
the subsequent `+ 10` also wraps. -/
def letterValWrap (c : Char) : ℕ :=
  ((c.toUpper.toNat + (u128Bound - 65)) % u128Bound + 10) % u128Bound

/-- Digit value computed by the parse loop of `convert_base` for one
character: ASCII digits via `c as u128 - '0' as u128` (never wraps, since
`c` is a digit), anything else via the wrapping letter branch. -/
def charValWrap (c : Char) : ℕ :=
  if c.isDigit then c.toNat - 48 else letterValWrap c

/-- Parse loop of `convert_base` (`src/lib.rs` lines 158–180): each digit is
validated against the source radix (`InvalidDigit`), then accumulated with
`checked_mul` and `checked_add` (`NumberOverflow` at the `2 ^ 128` bound).
The source performs the `d >= source_base` comparison separately inside the
digit branch and the letter branch; since the two branches are disjoint on the
character, folding the branch split into `charValWrap` and comparing once is
the same computation. -/
def parseDigits (b : ℕ) : List Char → ℕ → Except ConversionError ℕ
  | [], acc => .ok acc
  | c :: cs, acc =>
    let d := charValWrap c
    if b ≤ d then .error (.invalidDigit c)
    else if u128Bound ≤ acc * b then .error .numberOverflow
    else if u128Bound ≤ acc * b + d then .error .numberOverflow
    else parseDigits b cs (acc * b + d)

/-- Render loop of `convert_base` (`src/lib.rs` lines 187–198): repeatedly
divide by the target radix, looking each remainder up in the digit table
(`digits.chars().nth(remainder).ok_or(InvalidBase)`); digits come out least
significant first, exactly as they are pushed onto the Rust `Vec`. -/
def renderLoop (target : NumSystem) (n : ℕ) : Except ConversionError (List Char) :=
  if h : n = 0 then .ok []
  else
    match digits.get? (n % target.val) with
    | none => .error .invalidBase
    | some c =>
      match renderLoop target (n / target.val) with
      | .error e => .error e
      | .ok rest => .ok (c :: rest)
termination_by n
decreasing_by
  exact Nat.div_lt_self (Nat.pos_of_ne_zero h) (by cases target <;> decide)

/-- The function `convert_base` of `src/lib.rs`: prefix resolution, parse to
a `u128` intermediate, early `"0"` for a zero value, then the render loop
and a final reversal (`result.iter().rev().collect()`). -/
def convert_base (num : List Char) (src target : NumSystem) :
    Except ConversionError (List Char) :=
  match resolveRadix num src with
  | .error e => .error e
  | .ok (numStr, inferredSrc) =>
    let sourceBase := inferredSrc.getD src
    match parseDigits sourceBase.val numStr 0 with
    | .error e => .error e
    | .ok decimal =>
      if decimal = 0 then .ok ['0']
      else
        match renderLoop target decimal with
        | .error e => .error e
        | .ok revDigits => .ok revDigits.reverse

/-- Fuel-indexed executable twin of the render loop; `renderLoop_eq` below
proves it computes exactly what `renderLoop` returns (the fuel argument only
serves structural recursion and is irrelevant once it is at least `n`). -/
def renderDigits (t : NumSystem) : ℕ → ℕ → List Char
  | 0, _ => []
  | f + 1, n =>
    if n = 0 then [] else digits.getD (n % t.val) '0' :: renderDigits t f (n / t.val)

/-- Byte length of a string, the Rust `String::len` (UTF-8 bytes, not
characters). -/
def byteLen (l : List Char) : ℕ := (l.map Char.utf8Size).sum

/-- The function `pad_width` of `src/lib.rs`: when the byte length is below
`width`, prepend `width - len` zero characters (`"0".repeat(..)`),
otherwise return the input unchanged. -/
def pad_width (num : List Char) (width : ℕ) : List Char :=
  if byteLen num < width then List.replicate (width - byteLen num) '0' ++ num
  else num

/-- Rust `String::insert(i, c)` on a string embedded as a character list:
walk to byte offset `i` and insert there; `none` models the panic raised
when `i` is larger than the byte length or not on a character boundary. -/
def insertAtByte (l : List Char) (i : ℕ) (c : Char) : Option (List Char) :=
  if i = 0 then some (c :: l)
  else
    match l with
    | [] => none
    | x :: xs =>
      if x.utf8Size ≤ i then (insertAtByte xs (i - x.utf8Size) c).map (x :: ·)
      else none

/-- Grouping loop of `group_digits` (`src/lib.rs` lines 217–221) on the
already-reversed string: starting at byte index `grouping`, insert a space
and jump `grouping + 1` bytes, while the index is below the byte length.
The loop is embedded for grouping `gm + 1`, which the caller guarantees
(`group_digits` returns early on grouping 0, where the Rust loop would not
terminate); `none` models a panicking insert. -/
def groupLoop (gm : ℕ) (i : ℕ) (l : List Char) : Option (List Char) :=
  if i < byteLen l then
    match hins : insertAtByte l i ' ' with
    | none => none
    | some l2 => groupLoop gm (i + (gm + 1) + 1) l2
  else some l
termination_by byteLen l - i
decreasing_by
  have key : ∀ (ys : List Char) (j : ℕ) (zs : List Char),
      insertAtByte ys j ' ' = some zs → byteLen zs = byteLen ys + 1 := by
    intro ys
    induction ys with
    | nil =>
      intro j zs hj
      rw [insertAtByte] at hj
      by_cases hj0 : j = 0
      · rw [if_pos hj0] at hj
        cases hj
        rfl
      · rw [if_neg hj0] at hj
        cases hj
    | cons x xs ih =>
      intro j zs hj
      rw [insertAtByte] at hj
      by_cases hj0 : j = 0
      · rw [if_pos hj0] at hj
        cases hj
        exact Nat.add_comm 1 (byteLen (x :: xs))
      · rw [if_neg hj0] at hj
        by_cases hx : x.utf8Size ≤ j
        · rw [if_pos hx] at hj
          cases hm : insertAtByte xs (j - x.utf8Size) ' ' with
          | none => rw [hm] at hj; cases hj
          | some m =>
            rw [hm] at hj
            cases hj
            have h2 := ih _ _ hm
            show x.utf8Size + byteLen m = x.utf8Size + byteLen xs + 1
            omega
        · rw [if_neg hx] at hj
          cases hj
  have h2 := key l i l2 hins
  omega

/-- The function `group_digits` of `src/lib.rs`: grouping 0 returns the
input unchanged; otherwise the character list is reversed, spaces are
inserted by the byte-indexed loop, and the result is reversed back. -/
def group_digits (num : List Char) (grouping : ℕ) : Option (List Char) :=
  match grouping with
  | 0 => some num
  | gm + 1 => (groupLoop gm (gm + 1) num.reverse).map List.reverse

/-- The function `run` of `src/lib.rs`, modelled as returning the line it
prints: convert, then pad, then group, propagating conversion errors; the
outer `Option` models the (unreachable on conversion outputs) grouping
panic. -/
def run (config : Config) : Option (Except ConversionError (List Char)) :=
  match convert_base config.number config.src_base config.tgt_base with
  | .error e => some (.error e)
  | .ok r => (group_digits (pad_width r config.width) config.grouping).map Except.ok

/-- Digit value of the parse loop under the debug profile (the cargo default
for `cargo test` / `cargo run`), where `u128` overflow panics instead of
wrapping: `none` models the panic of
`(c.to_ascii_uppercase() as u128) - ('A' as u128)` when the character is
below `'A'`. -/
def charValChecked (c : Char) : Option ℕ :=
  if c.isDigit then some (c.toNat - 48)
  else if c.toUpper.toNat < 65 then none
  else some (c.toUpper.toNat - 65 + 10)

/-- Parse loop of `convert_base` under debug-profile (panicking) overflow
semantics; identical to `parseDigits` except that the letter-branch
subtraction panics (`none`) on underflow. -/
def parseDigitsChecked (b : ℕ) : List Char → ℕ → Option (Except ConversionError ℕ)
  | [], acc => some (.ok acc)
  | c :: cs, acc =>
    match charValChecked c with
    | none => none
    | some d =>
      if b ≤ d then some (.error (.invalidDigit c))
      else if u128Bound ≤ acc * b then some (.error .numberOverflow)
      else if u128Bound ≤ acc * b + d then some (.error .numberOverflow)
      else parseDigitsChecked b cs (acc * b + d)

/-- The function `convert_base` under debug-profile overflow semantics:
identical to `convert_base` except that the parse loop can panic (`none`). -/
def convert_baseChecked (num : List Char) (src target : NumSystem) :
    Option (Except ConversionError (List Char)) :=
  match resolveRadix num src with
  | .error e => some (.error e)
  | .ok (numStr, inferredSrc) =>
    let sourceBase := inferredSrc.getD src
    match parseDigitsChecked sourceBase.val numStr 0 with
    | none => none
    | some (.error e) => some (.error e)
    | some (.ok decimal) =>
      if decimal = 0 then some (.ok ['0'])
      else
        match renderLoop target decimal with
        | .error e => some (.error e)
        | .ok revDigits => some (.ok revDigits.reverse)

/-- Canonical rendering of a value in a radix: exactly the render phase of
`convert_base` (the literal `"0"` for zero, otherwise the collected
remainder digits reversed into most-significant-first order). -/
def render (t : NumSystem) (v : ℕ) : List Char :=
  if v = 0 then ['0'] else (renderDigits t v v).reverse

/-- Most-significant-first value of a digit list: the fold the parse loop
computes into its accumulator. -/
def accVal (b : ℕ) (acc : ℕ) (l : List Char) : ℕ :=
  l.foldl (fun a c => a * b + charValWrap c) acc

/-- Splitting of a list into grouping chunks of size `gm + 1`, taken from
the front; the last chunk may be shorter. -/
def chunks (gm : ℕ) (l : List Char) : List (List Char) :=
  if h : l.length ≤ gm + 1 then [l]
  else l.take (gm + 1) :: chunks gm (l.drop (gm + 1))
termination_by l.length
decreasing_by
  simp only [List.length_drop]
  omega

theorem NumSystem.two_le_val : ∀ t : NumSystem, 2 ≤ t.val := by
  intro t; cases t <;> simp [NumSystem.val]

theorem renderDigits_zero (t : NumSystem) : ∀ f, renderDigits t f 0 = [] := by
  intro f; cases f <;> simp [renderDigits]

theorem renderDigits_fuel (t : NumSystem) :
    ∀ f n f2, n ≤ f → n ≤ f2 → renderDigits t f n = renderDigits t f2 n := by
  intro f
  induction f using Nat.strong_induction_on with
  | _ f ih =>
    intro n f2 hf hf2
    match n, hf with
    | 0, _ => rw [renderDigits_zero, renderDigits_zero]
    | (m + 1), hf =>
      match f, hf, f2, hf2 with
      | f + 1, hf, f2 + 1, hf2 =>
        simp only [renderDigits]
        have hdiv : (m + 1) / t.val < m + 1 :=
          Nat.div_lt_self (Nat.succ_pos m)
            (lt_of_lt_of_le one_lt_two (NumSystem.two_le_val t))
        have h1 : (m + 1) / t.val ≤ f := by omega
        have h2 : (m + 1) / t.val ≤ f2 := by omega
        rw [ih f (by omega) _ f2 h1 h2]

theorem digits_get?_of_lt (m : ℕ) (h : m < 16) :
    digits.get? m = some (digits.getD m '0') := by
  interval_cases m <;> rfl

/-- The render loop never takes its error branch: it returns precisely the
least-significant-first digit list `renderDigits`. -/
theorem renderLoop_eq (t : NumSystem) (n : ℕ) :
    renderLoop t n = .ok (renderDigits t n n) := by
  induction n using Nat.strong_induction_on with
  | _ n ih =>
    rw [renderLoop]
    by_cases h : n = 0
    · subst h; simp [renderDigits_zero]
    · have hval : n % t.val < 16 :=
        lt_of_lt_of_le (Nat.mod_lt n (by have := NumSystem.two_le_val t; omega))
          (by cases t <;> simp [NumSystem.val])
      rw [dif_neg h, digits_get?_of_lt _ hval]
      have hdiv : n / t.val < n :=
        Nat.div_lt_self (Nat.pos_of_ne_zero h)
          (lt_of_lt_of_le one_lt_two (NumSystem.two_le_val t))
      rw [ih _ hdiv]
      match n, h with
      | m + 1, _ =>
        simp only [renderDigits]
        rw [if_neg (by omega)]
        have : (m + 1) / t.val ≤ m := by omega
        rw [renderDigits_fuel t ((m + 1) / t.val) ((m + 1) / t.val) m le_rfl this]

theorem insertAtByte_byteLen :
    ∀ (l : List Char) (i : ℕ) (c : Char) (l2 : List Char),
      insertAtByte l i c = some l2 → byteLen l2 = byteLen l + c.utf8Size := by
  intro l
  induction l with
  | nil =>
    intro i c l2 h
    rw [insertAtByte] at h
    by_cases hi : i = 0
    · rw [if_pos hi] at h
      cases h
      simp [byteLen]
      try omega
    · rw [if_neg hi] at h
      cases h
  | cons x xs ih =>
    intro i c l2 h
    rw [insertAtByte] at h
    by_cases hi : i = 0
    · rw [if_pos hi] at h
      cases h
      simp [byteLen]
      try omega
    · rw [if_neg hi] at h
      by_cases hx : x.utf8Size ≤ i
      · rw [if_pos hx] at h
        match hm : insertAtByte xs (i - x.utf8Size) c with
        | none => rw [hm] at h; cases h
        | some m =>
          rw [hm] at h
          cases h
          have := ih _ _ _ hm
          simp [byteLen] at this ⊢
          omega
      · rw [if_neg hx] at h; cases h

theorem accVal_nil (b acc : ℕ) : accVal b acc [] = acc := rfl

theorem accVal_cons (b acc : ℕ) (c : Char) (cs : List Char) :
    accVal b acc (c :: cs) = accVal b (acc * b + charValWrap c) cs := rfl

theorem accVal_append_one (b acc : ℕ) (l : List Char) (c : Char) :
    accVal b acc (l ++ [c]) = accVal b acc l * b + charValWrap c := by
  simp [accVal, List.foldl_append]

theorem accVal_mono (b : ℕ) (hb : 1 ≤ b) (acc : ℕ) (l : List Char) :
    acc ≤ accVal b acc l := by
  induction l generalizing acc with
  | nil => simp [accVal]
  | cons c cs ih =>
    rw [accVal_cons]
    calc acc ≤ acc * b + charValWrap c := by nlinarith
    _ ≤ accVal b (acc * b + charValWrap c) cs := ih _

/-- The parse loop succeeds on an all-valid digit list whose value stays in
the 128-bit range, and then returns exactly the fold value. -/
theorem parseDigits_ok (b : ℕ) (hb : 1 ≤ b) :
    ∀ (l : List Char) (acc : ℕ), (∀ c ∈ l, charValWrap c < b) →
      accVal b acc l < u128Bound → parseDigits b l acc = .ok (accVal b acc l) := by
  intro l
  induction l with
  | nil => intro acc _ _; rfl
  | cons c cs ih =>
    intro acc hvalid hlt
    rw [accVal_cons] at hlt ⊢
    have hd : charValWrap c < b := hvalid c (List.mem_cons_self c cs)
    have hstep : acc * b + charValWrap c ≤ accVal b (acc * b + charValWrap c) cs :=
      accVal_mono b hb _ cs
    rw [parseDigits]
    rw [if_neg (by omega), if_neg (by omega), if_neg (by omega)]
    exact ih _ (fun x hx => hvalid x (List.mem_cons_of_mem c hx)) hlt

/-- The parse loop reports `NumberOverflow` as soon as an all-valid digit
list pushes the accumulated value out of the 128-bit range. -/
theorem parseDigits_overflow (b : ℕ) :
    ∀ (l : List Char) (acc : ℕ), (∀ c ∈ l, charValWrap c < b) →
      acc < u128Bound → u128Bound ≤ accVal b acc l →
      parseDigits b l acc = .error .numberOverflow := by
  intro l
  induction l with
  | nil => intro acc _ hacc hge; rw [accVal_nil] at hge; omega
  | cons c cs ih =>
    intro acc hvalid hacc hge
    rw [accVal_cons] at hge
    have hd : charValWrap c < b := hvalid c (List.mem_cons_self c cs)
    rw [parseDigits]
    rw [if_neg (by omega)]
    by_cases h1 : u128Bound ≤ acc * b
    · rw [if_pos h1]
    · rw [if_neg h1]
      by_cases h2 : u128Bound ≤ acc * b + charValWrap c
      · rw [if_pos h2]
      · rw [if_neg h2]
        exact ih _ (fun x hx => hvalid x (List.mem_cons_of_mem c hx)) (by omega) hge

/-- The parse loop fails with `InvalidDigit` carrying the first character
whose value is out of range for the radix, provided the valid digits before
it do not overflow first (their accumulated value stays in range). -/
theorem parseDigits_invalid (b : ℕ) (hb : 1 ≤ b) :
    ∀ (pre : List Char) (c : Char) (suf : List Char) (acc : ℕ),
      (∀ d ∈ pre, charValWrap d < b) → b ≤ charValWrap c →
      accVal b acc pre < u128Bound →
      parseDigits b (pre ++ c :: suf) acc = .error (.invalidDigit c) := by
  intro pre
  induction pre with
  | nil =>
    intro c suf acc _ hc _
    rw [List.nil_append, parseDigits]
    rw [if_pos hc]
  | cons d pre ih =>
    intro c suf acc hvalid hc hlt
    rw [accVal_cons] at hlt
    have hd : charValWrap d < b := hvalid d (List.mem_cons_self d pre)
    have hstep : acc * b + charValWrap d ≤ accVal b (acc * b + charValWrap d) pre :=
      accVal_mono b hb _ pre
    rw [List.cons_append, parseDigits]
    rw [if_neg (by omega), if_neg (by omega), if_neg (by omega)]
    exact ih c suf _ (fun x hx => hvalid x (List.mem_cons_of_mem d hx)) hc hlt

/-- The parse loop never reports `InvalidBase`. -/
theorem parseDigits_ne_invalidBase (b : ℕ) :
    ∀ (l : List Char) (acc : ℕ), parseDigits b l acc ≠ .error .invalidBase := by
  intro l
  induction l with
  | nil => intro acc h; cases h
  | cons c cs ih =>
    intro acc
    rw [parseDigits]
    by_cases h1 : b ≤ charValWrap c
    · rw [if_pos h1]; intro h; cases h
    · rw [if_neg h1]
      by_cases h2 : u128Bound ≤ acc * b
      · rw [if_pos h2]; intro h; cases h
      · rw [if_neg h2]
        by_cases h3 : u128Bound ≤ acc * b + charValWrap c
        · rw [if_pos h3]; intro h; cases h
        · rw [if_neg h3]; exact ih _

/-- The only error `resolveRadix` ever produces is `InvalidBase`. -/
theorem resolveRadix_error (num : List Char) (src : NumSystem) (e : ConversionError)
    (h : resolveRadix num src = .error e) : e = .invalidBase := by
  rw [resolveRadix] at h
  split at h
  · cases h
  · split at h
    · cases h
    · split at h
      · cases h
      · split at h
        · cases h; rfl
        · cases h

theorem digits_getD_mem (m : ℕ) : digits.getD m '0' ∈ digits := by
  by_cases h : m < 16
  · interval_cases m <;> decide
  · have : digits.getD m '0' = '0' := by
      rw [List.getD_eq_default]
      simp [digits]; omega
    rw [this]; decide

theorem charValWrap_digits_getD (m : ℕ) (h : m < 16) :
    charValWrap (digits.getD m '0') = m := by
  interval_cases m <;> decide

theorem toLower_digits_getD_ne_zero (m : ℕ) (h1 : 1 ≤ m) (h2 : m < 16) :
    Char.toLower (digits.getD m '0') ≠ '0' := by
  interval_cases m <;> decide

/-- Every character of a rendered digit list is a table entry indexed by a
remainder below the target radix. -/
theorem renderDigits_chars (t : NumSystem) :
    ∀ f n, ∀ c ∈ renderDigits t f n, ∃ m, m < t.val ∧ c = digits.getD m '0' := by
  intro f
  induction f with
  | zero => intro n c hc; simp [renderDigits] at hc
  | succ f ih =>
    intro n c hc
    rw [renderDigits] at hc
    by_cases hn : n = 0
    · rw [if_pos hn] at hc; simp at hc
    · rw [if_neg hn] at hc
      rcases List.mem_cons.mp hc with h | h
      · exact ⟨n % t.val, Nat.mod_lt n (by have := NumSystem.two_le_val t; omega), h⟩
      · exact ih _ c h

/-- Folding the reversed rendered digit list back through the parse
accumulator recovers the rendered value. -/
theorem renderDigits_val (t : NumSystem) :
    ∀ f n acc, n ≤ f →
      accVal t.val acc (renderDigits t f n).reverse =
        acc * t.val ^ (renderDigits t f n).length + n := by
  intro f
  induction f with
  | zero =>
    intro n acc hn
    interval_cases n
    simp [renderDigits, accVal]
  | succ f ih =>
    intro n acc hn
    rw [renderDigits]
    by_cases hn0 : n = 0
    · rw [if_pos hn0]; simp [accVal, hn0]
    · rw [if_neg hn0]
      have hdiv : n / t.val < n :=
        Nat.div_lt_self (Nat.pos_of_ne_zero hn0)
          (lt_of_lt_of_le one_lt_two (NumSystem.two_le_val t))
      have hmod : n % t.val < 16 :=
        lt_of_lt_of_le (Nat.mod_lt n (by have := NumSystem.two_le_val t; omega))
          (by cases t <;> simp [NumSystem.val])
      rw [List.reverse_cons, accVal_append_one, ih (n / t.val) acc (by omega),
        charValWrap_digits_getD _ hmod]
      have hbase : 0 < t.val := by have := NumSystem.two_le_val t; omega
      rw [List.length_cons, pow_succ]
      have hdm : t.val * (n / t.val) + n % t.val = n := Nat.div_add_mod n t.val
      ring_nf
      nlinarith [hdm]

/-- A nonzero value renders to a nonempty digit list whose last entry (the
most significant digit) is a nonzero table digit. -/
theorem renderDigits_getLast (t : NumSystem) :
    ∀ f n, n ≠ 0 → n ≤ f →
      ∃ m, 1 ≤ m ∧ m < 16 ∧
        (renderDigits t f n).getLast? = some (digits.getD m '0') := by
  intro f
  induction f with
  | zero => intro n hn hf; omega
  | succ f ih =>
    intro n hn hf
    rw [renderDigits, if_neg hn]
    by_cases hdiv0 : n / t.val = 0
    · have hnlt : n < t.val := by
        rcases Nat.lt_or_ge n t.val with h | h
        · exact h
        · exact absurd (Nat.div_eq_zero_iff (by have := NumSystem.two_le_val t; omega)
            |>.mp hdiv0) (by omega)
      have hmod : n % t.val = n := Nat.mod_eq_of_lt hnlt
      have ht16 : t.val ≤ 16 := by cases t <;> simp [NumSystem.val]
      refine ⟨n, by omega, by omega, ?_⟩
      rw [hdiv0, renderDigits_zero, hmod]
      rfl
    · have hdiv : n / t.val < n :=
        Nat.div_lt_self (Nat.pos_of_ne_zero hn)
          (lt_of_lt_of_le one_lt_two (NumSystem.two_le_val t))
      obtain ⟨m, hm1, hm2, hm3⟩ := ih (n / t.val) hdiv0 (by omega)
      refine ⟨m, hm1, hm2, ?_⟩
      have hne : renderDigits t f (n / t.val) ≠ [] := by
        intro hemp
        rw [hemp] at hm3
        cases hm3
      obtain ⟨y, ys, hys⟩ := List.exists_cons_of_ne_nil hne
      rw [hys] at hm3 ⊢
      rw [List.getLast?_cons_cons]
      exact hm3

theorem hasMark_eq_false_of_head (l : List Char) (m : Char)
    (h : ∀ c, l.head? = some c → Char.toLower c ≠ '0') : hasMark l m = false := by
  match l with
  | [] => rfl
  | [a] => rfl
  | a :: b :: rest =>
    have ha : Char.toLower a ≠ '0' := h a rfl
    rw [hasMark]
    simp only [List.map_cons]
    simp [ha]

theorem render_head (t : NumSystem) (v : ℕ) (hv : v ≠ 0) :
    ∃ c, (render t v).head? = some c ∧ Char.toLower c ≠ '0' := by
  obtain ⟨m, hm1, hm2, hm3⟩ := renderDigits_getLast t v v hv le_rfl
  refine ⟨digits.getD m '0', ?_, toLower_digits_getD_ne_zero m hm1 hm2⟩
  rw [render, if_neg hv, List.head?_reverse]
  exact hm3

theorem hasMark_render (t : NumSystem) (v : ℕ) (m : Char) :
    hasMark (render t v) m = false := by
  by_cases hv : v = 0
  · subst hv; rfl
  · obtain ⟨c, hc1, hc2⟩ := render_head t v hv
    refine hasMark_eq_false_of_head _ _ ?_
    intro x hx
    rw [hc1] at hx
    cases hx
    exact hc2

theorem resolveRadix_of_no_marks (num : List Char) (src : NumSystem)
    (hx : hasMark num 'x' = false) (ho : hasMark num 'o' = false)
    (hb : hasMark num 'b' = false) : resolveRadix num src = .ok (num, none) := by
  rw [resolveRadix, if_neg (by simp [hx]), if_neg (by simp [ho]), if_neg (by simp [hb]),
    if_neg (by simp [hx, ho, hb])]

/-- Unfolding of `convert_base` once the prefix step has resolved to the
whole string with no inferred radix. -/
theorem convert_base_of_resolve (num : List Char) (src t : NumSystem) (numStr : List Char)
    (h : resolveRadix num src = .ok (numStr, none)) :
    convert_base num src t =
      match parseDigits src.val numStr 0 with
      | .error e => .error e
      | .ok decimal =>
        if decimal = 0 then .ok ['0']
        else
          match renderLoop t decimal with
          | .error e => .error e
          | .ok revDigits => .ok revDigits.reverse := by
  unfold convert_base
  rw [h]
  rfl

/-- Unfolding of `convert_base` when the prefix step fails. -/
theorem convert_base_of_resolve_error (num : List Char) (src t : NumSystem)
    (e : ConversionError) (h : resolveRadix num src = .error e) :
    convert_base num src t = .error e := by
  unfold convert_base
  rw [h]

/-- The parse phase inverts the render phase: parsing the canonical
rendering of a 128-bit value under the same radix recovers the value. -/
theorem parseDigits_render (t : NumSystem) (v : ℕ) (hv : v < u128Bound) :
    parseDigits t.val (render t v) 0 = .ok v := by
  have hb : 1 ≤ t.val := le_trans one_le_two (NumSystem.two_le_val t)
  by_cases h0 : v = 0
  · subst h0
    rw [render, if_pos rfl]
    have hvalid : ∀ c ∈ ['0'], charValWrap c < t.val := by
      intro c hc
      simp at hc
      subst hc
      have : charValWrap '0' = 0 := by decide
      omega
    have hval : accVal t.val 0 ['0'] = 0 := by
      have : charValWrap '0' = 0 := by decide
      simp [accVal, this]
    rw [parseDigits_ok t.val hb ['0'] 0 hvalid (by rw [hval]; norm_num [u128Bound]), hval]
  · rw [render, if_neg h0]
    have hvalid : ∀ c ∈ (renderDigits t v v).reverse, charValWrap c < t.val := by
      intro c hc
      rw [List.mem_reverse] at hc
      obtain ⟨m, hm1, hm2⟩ := renderDigits_chars t v v c hc
      have hm16 : m < 16 := lt_of_lt_of_le hm1 (by cases t <;> simp [NumSystem.val])
      rw [hm2, charValWrap_digits_getD m hm16]
      exact hm1
    have hval : accVal t.val 0 (renderDigits t v v).reverse = v := by
      rw [renderDigits_val t v v 0 le_rfl]
      simp
    rw [parseDigits_ok t.val hb _ 0 hvalid (by rw [hval]; exact hv), hval]

/-- Unfolding of `convert_base` once both the prefix step and the parse
phase are known to succeed. -/
theorem convert_base_parse_ok (num : List Char) (src t : NumSystem) (numStr : List Char)
    (d : ℕ) (hres : resolveRadix num src = .ok (numStr, none))
    (hp : parseDigits src.val numStr 0 = .ok d) :
    convert_base num src t =
      if d = 0 then .ok ['0']
      else
        match renderLoop t d with
        | .error e => .error e
        | .ok revDigits => .ok revDigits.reverse := by
  rw [convert_base_of_resolve num src t numStr hres, hp]

/-- Converting the canonical rendering of a 128-bit value from radix `r1`
to radix `r2` succeeds and produces the canonical rendering in `r2`. -/
theorem convert_base_render (v : ℕ) (hv : v < u128Bound) (r1 r2 : NumSystem) :
    convert_base (render r1 v) r1 r2 = .ok (render r2 v) := by
  have hres : resolveRadix (render r1 v) r1 = .ok (render r1 v, none) :=
    resolveRadix_of_no_marks _ _ (hasMark_render r1 v 'x') (hasMark_render r1 v 'o')
      (hasMark_render r1 v 'b')
  rw [convert_base_parse_ok _ _ _ _ v hres (parseDigits_render r1 v hv)]
  by_cases h0 : v = 0
  · subst h0
    rw [if_pos rfl, render, if_pos rfl]
  · rw [if_neg h0, renderLoop_eq, render, if_neg h0]

theorem hasMark_unique (num : List Char) (a b : Char)
    (ha : hasMark num a = true) (hb : hasMark num b = true) : a = b := by
  rw [hasMark] at ha hb
  match h : num.map Char.toLower with
  | [] => rw [h] at ha; cases ha
  | [x] => rw [h] at ha; cases ha
  | x :: y :: rest =>
    rw [h] at ha hb
    have hya : y = a := by
      have := (Bool.and_eq_true _ _).mp ha
      exact eq_of_beq this.2
    have hyb : y = b := by
      have := (Bool.and_eq_true _ _).mp hb
      exact eq_of_beq this.2
    rw [← hya, ← hyb]

theorem resolveRadix_mismatch_x (num : List Char) (src : NumSystem)
    (hx : hasMark num 'x' = true) (hsrc : src ≠ .hex) :
    resolveRadix num src = .error .invalidBase := by
  have ho : hasMark num 'o' = false := by
    by_contra h
    have := hasMark_unique num 'x' 'o' hx (by simpa using h)
    cases this
  have hb : hasMark num 'b' = false := by
    by_contra h
    have := hasMark_unique num 'x' 'b' hx (by simpa using h)
    cases this
  rw [resolveRadix, if_neg (by simp [hsrc]), if_neg (by simp [ho]), if_neg (by simp [hb]),
    if_pos (by simp [hx])]

theorem resolveRadix_mismatch_o (num : List Char) (src : NumSystem)
    (ho : hasMark num 'o' = true) (hsrc : src ≠ .oct) :
    resolveRadix num src = .error .invalidBase := by
  have hx : hasMark num 'x' = false := by
    by_contra h
    have := hasMark_unique num 'o' 'x' ho (by simpa using h)
    cases this
  have hb : hasMark num 'b' = false := by
    by_contra h
    have := hasMark_unique num 'o' 'b' ho (by simpa using h)
    cases this
  rw [resolveRadix, if_neg (by simp [hx]), if_neg (by simp [hsrc]), if_neg (by simp [hb]),
    if_pos (by simp [ho])]

theorem resolveRadix_mismatch_b (num : List Char) (src : NumSystem)
    (hb : hasMark num 'b' = true) (hsrc : src ≠ .bin) :
    resolveRadix num src = .error .invalidBase := by
  have hx : hasMark num 'x' = false := by
    by_contra h
    have := hasMark_unique num 'b' 'x' hb (by simpa using h)
    cases this
  have ho : hasMark num 'o' = false := by
    by_contra h
    have := hasMark_unique num 'b' 'o' hb (by simpa using h)
    cases this
  rw [resolveRadix, if_neg (by simp [hx]), if_neg (by simp [ho]), if_neg (by simp [hsrc]),
    if_pos (by simp [hb])]

theorem charValWrap_F : charValWrap 'F' = 15 := by decide

/-- Accumulated value of a run of `'F'` digits under radix 16. -/
theorem accVal_replicate_F (k : ℕ) :
    ∀ acc, accVal 16 acc (List.replicate k 'F') = acc * 16 ^ k + (16 ^ k - 1) := by
  induction k with
  | zero => intro acc; simp [accVal]
  | succ k ih =>
    intro acc
    rw [List.replicate_succ, accVal_cons, charValWrap_F, ih]
    have h16 : 1 ≤ (16 : ℕ) ^ k := Nat.one_le_pow k 16 (by norm_num)
    rw [pow_succ]
    ring_nf
    omega

/-- Rendering `16 ^ k - 1` in hexadecimal yields `k` copies of `'F'`. -/
theorem renderDigits_hex_F (k : ℕ) :
    ∀ f, 16 ^ k - 1 ≤ f → renderDigits .hex f (16 ^ k - 1) = List.replicate k 'F' := by
  induction k with
  | zero => intro f _; simp [renderDigits_zero]
  | succ k ih =>
    intro f hf
    have h16 : 1 ≤ (16 : ℕ) ^ k := Nat.one_le_pow k 16 (by norm_num)
    have hpow : (16 : ℕ) ^ (k + 1) = 16 * 16 ^ k := by rw [pow_succ]; ring
    have hne : 16 ^ (k + 1) - 1 ≠ 0 := by rw [hpow]; omega
    match f, Nat.lt_of_lt_of_le (Nat.pos_of_ne_zero hne) hf with
    | f + 1, _ =>
      rw [renderDigits, if_neg hne]
      have hval : (NumSystem.hex).val = 16 := rfl
      have hmod : (16 ^ (k + 1) - 1) % 16 = 15 := by
        have : 16 ^ (k + 1) - 1 = 16 * (16 ^ k - 1) + 15 := by rw [hpow]; omega
        omega
      have hdiv : (16 ^ (k + 1) - 1) / 16 = 16 ^ k - 1 := by
        have : 16 ^ (k + 1) - 1 = 16 * (16 ^ k - 1) + 15 := by rw [hpow]; omega
        omega
      rw [hval, hmod, hdiv, List.replicate_succ]
      have hfle : 16 ^ k - 1 ≤ f := by
        have : 16 ^ k - 1 < 16 ^ (k + 1) - 1 := by rw [hpow]; omega
        omega
      rw [ih f hfle]
      rfl

/-- Unfolding of `convert_base` for any successful prefix resolution. -/
theorem convert_base_of_resolve_any (num : List Char) (src t : NumSystem)
    (numStr : List Char) (inf : Option NumSystem)
    (h : resolveRadix num src = .ok (numStr, inf)) :
    convert_base num src t =
      match parseDigits (inf.getD src).val numStr 0 with
      | .error e => .error e
      | .ok decimal =>
        if decimal = 0 then .ok ['0']
        else
          match renderLoop t decimal with
          | .error e => .error e
          | .ok revDigits => .ok revDigits.reverse := by
  unfold convert_base
  rw [h]

/-- Every successful output of `convert_base` is built from the sixteen
uppercase table digits. -/
theorem convert_base_ok_chars (num : List Char) (src tgt : NumSystem) (out : List Char)
    (h : convert_base num src tgt = .ok out) : ∀ c ∈ out, c ∈ digits := by
  match hres : resolveRadix num src with
  | .error e =>
    rw [convert_base_of_resolve_error num src tgt e hres] at h
    cases h
  | .ok (numStr, inf) =>
    rw [convert_base_of_resolve_any num src tgt numStr inf hres] at h
    match hp : parseDigits (inf.getD src).val numStr 0 with
    | .error e => rw [hp] at h; cases h
    | .ok d =>
      rw [hp] at h
      have h2 : (if d = 0 then Except.ok ['0']
          else match renderLoop tgt d with
            | .error e => Except.error e
            | .ok revDigits => Except.ok revDigits.reverse) = Except.ok out := h
      by_cases hd : d = 0
      · rw [if_pos hd] at h2
        cases h2
        intro c hc
        simp at hc
        subst hc
        decide
      · rw [if_neg hd, renderLoop_eq] at h2
        cases h2
        intro c hc
        rw [List.mem_reverse] at hc
        obtain ⟨m, _, hm⟩ := renderDigits_chars tgt d d c hc
        rw [hm]
        exact digits_getD_mem m

/-- An `InvalidBase` failure of `convert_base` can only originate in the
prefix step: the digit-table lookup of the render loop never fails. -/
theorem convert_base_invalidBase (num : List Char) (src tgt : NumSystem)
    (h : convert_base num src tgt = .error .invalidBase) :
    resolveRadix num src = .error .invalidBase := by
  match hres : resolveRadix num src with
  | .error e =>
    rw [resolveRadix_error num src e hres]
  | .ok (numStr, inf) =>
    rw [convert_base_of_resolve_any num src tgt numStr inf hres] at h
    match hp : parseDigits (inf.getD src).val numStr 0 with
    | .error e =>
      rw [hp] at h
      cases h
      exact absurd hp (parseDigits_ne_invalidBase _ _ _)
    | .ok d =>
      rw [hp] at h
      have h2 : (if d = 0 then Except.ok ['0']
          else match renderLoop tgt d with
            | .error e => Except.error e
            | .ok revDigits => Except.ok revDigits.reverse) =
          Except.error ConversionError.invalidBase := h
      by_cases hd : d = 0
      · rw [if_pos hd] at h2; cases h2
      · rw [if_neg hd, renderLoop_eq] at h2; cases h2

theorem byteLen_nil : byteLen [] = 0 := rfl

theorem byteLen_cons (c : Char) (l : List Char) :
    byteLen (c :: l) = c.utf8Size + byteLen l := by
  simp [byteLen]

theorem byteLen_append (a b : List Char) : byteLen (a ++ b) = byteLen a + byteLen b := by
  simp [byteLen]

theorem byteLen_ascii (l : List Char) (h : ∀ c ∈ l, Char.utf8Size c = 1) :
    byteLen l = l.length := by
  induction l with
  | nil => rfl
  | cons c cs ih =>
    rw [byteLen_cons, h c (List.mem_cons_self c cs), ih fun x hx => h x (List.mem_cons_of_mem c hx)]
    simp [Nat.add_comm]

/-- On a one-byte-per-character (ASCII) string, the byte-indexed insert is
the positional insert. -/
theorem insertAtByte_ascii (c : Char) :
    ∀ (l : List Char), (∀ x ∈ l, Char.utf8Size x = 1) → ∀ i, i ≤ l.length →
      insertAtByte l i c = some (l.take i ++ c :: l.drop i) := by
  intro l
  induction l with
  | nil =>
    intro _ i hi
    have hi0 : i = 0 := by simpa using hi
    subst hi0
    rfl
  | cons x xs ih =>
    intro hl i hi
    rw [insertAtByte]
    by_cases hi0 : i = 0
    · rw [if_pos hi0, hi0]
      simp
    · rw [if_neg hi0]
      have hx : x.utf8Size = 1 := hl x (List.mem_cons_self x xs)
      rw [if_pos (by omega)]
      match i, hi0 with
      | i + 1, _ =>
        rw [hx]
        simp only [Nat.add_sub_cancel]
        rw [ih (fun y hy => hl y (List.mem_cons_of_mem x hy)) i (by simpa using hi)]
        rfl

theorem insertAtByte_append (c : Char) :
    ∀ (a l : List Char) (i : ℕ),
      insertAtByte (a ++ l) (byteLen a + i) c = (insertAtByte l i c).map (a ++ ·) := by
  intro a
  induction a with
  | nil =>
    intro l i
    rw [byteLen_nil, List.nil_append, Nat.zero_add]
    cases insertAtByte l i c <;> simp
  | cons x a2 ih =>
    intro l i
    have hx : 0 < x.utf8Size := Char.utf8Size_pos x
    rw [byteLen_cons, List.cons_append, insertAtByte, if_neg (by omega), if_pos (by omega)]
    have harith : x.utf8Size + byteLen a2 + i - x.utf8Size = byteLen a2 + i := by omega
    rw [harith, ih l i]
    cases insertAtByte l i c <;> simp

theorem groupLoop_stop (gm i : ℕ) (l : List Char) (h : ¬ i < byteLen l) :
    groupLoop gm i l = some l := by
  rw [groupLoop, if_neg h]

theorem groupLoop_panic (gm i : ℕ) (l : List Char)
    (h : i < byteLen l) (hins : insertAtByte l i ' ' = none) :
    groupLoop gm i l = none := by
  rw [groupLoop, if_pos h]
  split
  · rfl
  · rename_i l2 heq
    rw [hins] at heq
    cases heq

theorem groupLoop_step (gm i : ℕ) (l l2 : List Char)
    (h : i < byteLen l) (hins : insertAtByte l i ' ' = some l2) :
    groupLoop gm i l = groupLoop gm (i + (gm + 1) + 1) l2 := by
  rw [groupLoop, if_pos h]
  split
  · rename_i heq
    rw [hins] at heq
    cases heq
  · rename_i x heq
    rw [hins] at heq
    cases heq
    rfl

/-- The grouping loop acting beyond a fixed ASCII-irrelevant left part `a`
behaves as the loop on the right part alone, with `a` prepended at the
end. -/
theorem groupLoop_append (gm : ℕ) :
    ∀ (n : ℕ) (rest : List Char) (k : ℕ) (a : List Char), byteLen rest - k = n →
      groupLoop gm (byteLen a + k) (a ++ rest) = (groupLoop gm k rest).map (a ++ ·) := by
  intro n
  induction n using Nat.strong_induction_on with
  | _ n ih =>
    intro rest k a hn
    by_cases hk : k < byteLen rest
    · have hk2 : byteLen a + k < byteLen (a ++ rest) := by rw [byteLen_append]; omega
      match hins : insertAtByte rest k ' ' with
      | none =>
        have hins2 : insertAtByte (a ++ rest) (byteLen a + k) ' ' = none := by
          rw [insertAtByte_append, hins]
          rfl
        rw [groupLoop_panic gm _ _ hk2 hins2, groupLoop_panic gm _ _ hk hins]
        rfl
      | some r2 =>
        have hins2 : insertAtByte (a ++ rest) (byteLen a + k) ' ' = some (a ++ r2) := by
          rw [insertAtByte_append, hins]
          rfl
        rw [groupLoop_step gm _ _ _ hk2 hins2, groupLoop_step gm _ _ _ hk hins]
        have hlen : byteLen r2 = byteLen rest + 1 := by
          have := insertAtByte_byteLen rest k ' ' r2 hins
          simpa using this
        have harith : byteLen a + k + (gm + 1) + 1 = byteLen a + (k + (gm + 1) + 1) := by
          omega
        rw [harith]
        exact ih (byteLen r2 - (k + (gm + 1) + 1)) (by omega) r2 _ a rfl
    · have hk2 : ¬ byteLen a + k < byteLen (a ++ rest) := by rw [byteLen_append]; omega
      rw [groupLoop_stop gm _ _ hk2, groupLoop_stop gm _ _ hk]
      rfl

theorem chunks_small (gm : ℕ) (l : List Char) (h : l.length ≤ gm + 1) :
    chunks gm l = [l] := by
  rw [chunks, dif_pos h]

theorem chunks_step (gm : ℕ) (l : List Char) (h : ¬ l.length ≤ gm + 1) :
    chunks gm l = l.take (gm + 1) :: chunks gm (l.drop (gm + 1)) := by
  rw [chunks, dif_neg h]

theorem chunks_ne_nil (gm : ℕ) (l : List Char) : chunks gm l ≠ [] := by
  rw [chunks]
  split <;> simp

theorem chunks_chars (gm : ℕ) :
    ∀ (l : List Char), ∀ q ∈ chunks gm l, ∀ c ∈ q, c ∈ l := by
  intro l
  generalize hl : l.length = n
  induction n using Nat.strong_induction_on generalizing l with
  | _ n ih =>
    subst hl
    intro q hq c hc
    by_cases h : l.length ≤ gm + 1
    · rw [chunks_small gm l h] at hq
      simp at hq
      subst hq
      exact hc
    · rw [chunks_step gm l h] at hq
      rcases List.mem_cons.mp hq with h1 | h1
      · subst h1
        exact List.take_subset _ _ hc
      · have hlen : (l.drop (gm + 1)).length < l.length := by
          simp only [List.length_drop]
          omega
        exact List.drop_subset _ _ (ih _ hlen (l.drop (gm + 1)) rfl q h1 c hc)

theorem chunks_dropLast_length (gm : ℕ) :
    ∀ (l : List Char), ∀ q ∈ (chunks gm l).dropLast, q.length = gm + 1 := by
  intro l
  generalize hl : l.length = n
  induction n using Nat.strong_induction_on generalizing l with
  | _ n ih =>
    subst hl
    intro q hq
    by_cases h : l.length ≤ gm + 1
    · rw [chunks_small gm l h] at hq
      simp at hq
    · rw [chunks_step gm l h,
        List.dropLast_cons_of_ne_nil (chunks_ne_nil gm (l.drop (gm + 1)))] at hq
      rcases List.mem_cons.mp hq with h1 | h1
      · subst h1
        rw [List.length_take]
        omega
      · have hlen : (l.drop (gm + 1)).length < l.length := by
          simp only [List.length_drop]
          omega
        exact ih _ hlen (l.drop (gm + 1)) rfl q h1

theorem chunks_getLast_le (gm : ℕ) :
    ∀ (l : List Char) (q : List Char), (chunks gm l).getLast? = some q →
      q.length ≤ gm + 1 := by
  intro l
  generalize hl : l.length = n
  induction n using Nat.strong_induction_on generalizing l with
  | _ n ih =>
    subst hl
    intro q hq
    by_cases h : l.length ≤ gm + 1
    · rw [chunks_small gm l h] at hq
      simp at hq
      subst hq
      exact h
    · rw [chunks_step gm l h] at hq
      obtain ⟨y, ys, hys⟩ :=
        List.exists_cons_of_ne_nil (chunks_ne_nil gm (l.drop (gm + 1)))
      rw [hys, List.getLast?_cons_cons] at hq
      rw [← hys] at hq
      have hlen : (l.drop (gm + 1)).length < l.length := by
        simp only [List.length_drop]
        omega
      exact ih _ hlen (l.drop (gm + 1)) rfl q hq

theorem chunks_all_ne_nil (gm : ℕ) :
    ∀ (l : List Char), l ≠ [] → ∀ q ∈ chunks gm l, q ≠ [] := by
  intro l
  generalize hl : l.length = n
  induction n using Nat.strong_induction_on generalizing l with
  | _ n ih =>
    subst hl
    intro hne q hq
    by_cases h : l.length ≤ gm + 1
    · rw [chunks_small gm l h] at hq
      simp at hq
      subst hq
      exact hne
    · rw [chunks_step gm l h] at hq
      rcases List.mem_cons.mp hq with h1 | h1
      · subst h1
        intro hemp
        have h2 := congrArg List.length hemp
        rw [List.length_take] at h2
        simp only [List.length_nil] at h2
        omega
      · have hlen : (l.drop (gm + 1)).length < l.length := by
          simp only [List.length_drop]
          omega
        have hdne : l.drop (gm + 1) ≠ [] := by
          intro hemp
          have := congrArg List.length hemp
          simp at this
          omega
        exact ih _ hlen (l.drop (gm + 1)) rfl hdne q h1

theorem intercalate_one (s x : List Char) : List.intercalate s [x] = x := by
  simp [List.intercalate, List.intersperse]

theorem intercalate_cons_ne_nil (s x : List Char) (ys : List (List Char)) (h : ys ≠ []) :
    List.intercalate s (x :: ys) = x ++ s ++ List.intercalate s ys := by
  match ys, h with
  | y :: ys, _ => simp [List.intercalate, List.intersperse]

/-- The grouping loop started at index `gm + 1` on an ASCII string inserts
one separator between consecutive chunks of `gm + 1` characters. -/
theorem groupLoop_chunks (gm : ℕ) :
    ∀ (l : List Char), (∀ c ∈ l, Char.utf8Size c = 1) →
      groupLoop gm (gm + 1) l = some (List.intercalate [' '] (chunks gm l)) := by
  intro l
  generalize hl : l.length = n
  induction n using Nat.strong_induction_on generalizing l with
  | _ n ih =>
    subst hl
    intro ha
    have hb : byteLen l = l.length := byteLen_ascii l ha
    by_cases h : l.length ≤ gm + 1
    · rw [groupLoop_stop gm _ _ (by omega), chunks_small gm l h, intercalate_one]
    · have hins : insertAtByte l (gm + 1) ' ' =
          some (l.take (gm + 1) ++ ' ' :: l.drop (gm + 1)) :=
        insertAtByte_ascii ' ' l ha (gm + 1) (by omega)
      rw [groupLoop_step gm _ _ _ (by omega) hins]
      have hsplit : l.take (gm + 1) ++ ' ' :: l.drop (gm + 1) =
          (l.take (gm + 1) ++ [' ']) ++ l.drop (gm + 1) := by
        simp
      have hta : ∀ c ∈ l.take (gm + 1) ++ [' '], Char.utf8Size c = 1 := by
        intro c hc
        rcases List.mem_append.mp hc with h1 | h1
        · exact ha c (List.take_subset _ _ h1)
        · simp at h1
          subst h1
          rfl
      have hblen : byteLen (l.take (gm + 1) ++ [' ']) = gm + 2 := by
        rw [byteLen_ascii _ hta]
        simp
        omega
      have harith : gm + 1 + (gm + 1) + 1 = byteLen (l.take (gm + 1) ++ [' ']) + (gm + 1) := by
        omega
      rw [hsplit, harith,
        groupLoop_append gm (byteLen (l.drop (gm + 1)) - (gm + 1)) (l.drop (gm + 1))
          (gm + 1) (l.take (gm + 1) ++ [' ']) rfl]
      have hlen : (l.drop (gm + 1)).length < l.length := by
        simp only [List.length_drop]
        omega
      rw [ih _ hlen (l.drop (gm + 1)) rfl fun c hc => ha c (List.drop_subset _ _ hc)]
      rw [chunks_step gm l h,
        intercalate_cons_ne_nil _ _ _ (chunks_ne_nil gm (l.drop (gm + 1)))]
      simp

/-- On an ASCII string with positive grouping, `group_digits` produces the
reversed separator-joined chunk decomposition of the reversed input. -/
theorem group_digits_ascii (s : List Char) (gm : ℕ)
    (ha : ∀ c ∈ s, Char.utf8Size c = 1) :
    group_digits s (gm + 1) =
      some ((List.intercalate [' '] (chunks gm s.reverse)).reverse) := by
  rw [group_digits]
  rw [groupLoop_chunks gm s.reverse (by intro c hc; exact ha c (List.mem_reverse.mp hc))]
  rfl

theorem intercalate_append_one (s b : List Char) :
    ∀ as : List (List Char), as ≠ [] →
      List.intercalate s (as ++ [b]) = List.intercalate s as ++ s ++ b := by
  intro as
  induction as with
  | nil => intro h; exact absurd rfl h
  | cons a as ih =>
    intro _
    by_cases h : as = []
    · subst h
      rw [List.singleton_append, intercalate_cons_ne_nil s a [b] (by simp),
        intercalate_one, intercalate_one]
    · rw [List.cons_append, intercalate_cons_ne_nil s a (as ++ [b]) (by simp [h]),
        ih h, intercalate_cons_ne_nil s a as h]
      simp [List.append_assoc]

theorem reverse_intercalate (c : Char) :
    ∀ ps : List (List Char),
      (List.intercalate [c] ps).reverse =
        List.intercalate [c] ((ps.map List.reverse).reverse) := by
  intro ps
  induction ps with
  | nil => simp [List.intercalate, List.intersperse]
  | cons x ys ih =>
    by_cases h : ys = []
    · subst h
      simp only [List.map_cons, List.map_nil, List.reverse_cons, List.reverse_nil,
        List.nil_append, intercalate_one]
    · rw [intercalate_cons_ne_nil _ _ _ h, List.map_cons]
      rw [show (x.reverse :: List.map List.reverse ys).reverse =
          (List.map List.reverse ys).reverse ++ [x.reverse] from List.reverse_cons _ _]
      rw [intercalate_append_one [c] x.reverse ((ys.map List.reverse).reverse)
          (by simpa using h), ← ih]
      simp [List.reverse_append, List.append_assoc]

theorem intercalate_sep_free :
    ∀ ps : List (List Char), ps ≠ [] → (∀ p ∈ ps, p ≠ []) → (∀ p ∈ ps, ' ' ∉ p) →
      List.intercalate [' '] ps ≠ [] ∧
      (List.intercalate [' '] ps).head? ≠ some ' ' ∧
      (List.intercalate [' '] ps).getLast? ≠ some ' ' := by
  intro ps
  induction ps with
  | nil => intro h; exact absurd rfl h
  | cons x ys ih =>
    intro _ hne hsp
    have hx : x ≠ [] := hne x (List.mem_cons_self x ys)
    have hxs : ' ' ∉ x := hsp x (List.mem_cons_self x ys)
    by_cases h : ys = []
    · subst h
      rw [intercalate_one]
      refine ⟨hx, ?_, ?_⟩
      · intro hh
        exact hxs (List.mem_of_mem_head? hh)
      · intro hh
        exact hxs (List.mem_of_mem_getLast? hh)
    · obtain ⟨hI, hIh, hIl⟩ := ih h (fun p hp => hne p (List.mem_cons_of_mem x hp))
        (fun p hp => hsp p (List.mem_cons_of_mem x hp))
      rw [intercalate_cons_ne_nil _ _ _ h]
      refine ⟨by simp [hx], ?_, ?_⟩
      · rw [List.append_assoc, List.head?_append]
        obtain ⟨cx, xt, hxc⟩ := List.exists_cons_of_ne_nil hx
        subst hxc
        intro hh
        have h2 : some cx = some ' ' := hh
        have hcx : cx = ' ' := by injection h2
        subst hcx
        exact hxs (List.mem_cons_self _ _)
      · rw [List.append_assoc, List.getLast?_append, List.getLast?_append]
        obtain ⟨cI, hcI⟩ := Option.isSome_iff_exists.mp
          (List.getLast?_isSome.mpr hI)
        rw [hcI]
        intro hh
        have h2 : some cI = some ' ' := hh
        have hcI2 : cI = ' ' := by injection h2
        subst hcI2
        exact hIl hcI

/-- Unfolding of `convert_base` when the parse phase fails, for any
successful prefix resolution. -/
theorem convert_base_parse_error_any (num : List Char) (src t : NumSystem)
    (numStr : List Char) (inf : Option NumSystem) (e : ConversionError)
    (hres : resolveRadix num src = .ok (numStr, inf))
    (hp : parseDigits (inf.getD src).val numStr 0 = .error e) :
    convert_base num src t = .error e := by
  rw [convert_base_of_resolve_any num src t numStr inf hres, hp]

/-- Unfolding of `convert_base` when the parse phase succeeds, for any
successful prefix resolution. -/
theorem convert_base_parse_ok_any (num : List Char) (src t : NumSystem)
    (numStr : List Char) (inf : Option NumSystem) (d : ℕ)
    (hres : resolveRadix num src = .ok (numStr, inf))
    (hp : parseDigits (inf.getD src).val numStr 0 = .ok d) :
    convert_base num src t =
      if d = 0 then .ok ['0']
      else
        match renderLoop t d with
        | .error e => .error e
        | .ok revDigits => .ok revDigits.reverse := by
  rw [convert_base_of_resolve_any num src t numStr inf hres, hp]

/-- C1 (counterexample): a prefix-only string whose prefix matches the
declared source radix does not fail — `convert_base("0x", Hex, Dec)`
returns `Ok("0")`: the stripped tail is empty, the empty digit string
accumulates to 0, and the zero early-return produces `"0"`. -/
theorem c1_counterexample : convert_base "0x".toList .hex .dec = .ok ['0'] := rfl

/-- C1 (amended): for every recognized prefix-only input whose implied
radix matches the declared source radix (in either letter case) and for
every target radix, `convert_base` returns `Ok("0")` rather than an
error: the empty digit tail parses to the value 0 with no validation
failure. -/
theorem c1_prefix_only_ok_zero :
    ∀ tgt : NumSystem,
      convert_base "0x".toList .hex tgt = .ok ['0'] ∧
      convert_base "0X".toList .hex tgt = .ok ['0'] ∧
      convert_base "0o".toList .oct tgt = .ok ['0'] ∧
      convert_base "0O".toList .oct tgt = .ok ['0'] ∧
      convert_base "0b".toList .bin tgt = .ok ['0'] ∧
      convert_base "0B".toList .bin tgt = .ok ['0'] := by
  intro tgt
  exact ⟨rfl, rfl, rfl, rfl, rfl, rfl⟩

/-- C2 (code bug): under the debug/test profile, where Rust `u128`
arithmetic panics on overflow, `convert_base("!", Hex, Dec)` panics in the
letter-branch subtraction (`'!'` maps below `'A'`, so
`c.to_ascii_uppercase() as u128 - 'A' as u128` underflows), modelled by
`convert_baseChecked` returning `none`; only under release (wrapping)
semantics does the same call return `InvalidDigit('!')`. -/
theorem c2_debug_underflow_panics :
    convert_baseChecked ['!'] .hex .dec = none ∧
    convert_base ['!'] .hex .dec = .error (.invalidDigit '!') :=
  ⟨rfl, rfl⟩

/-- C3 (counterexample): `convert_base("0o89", Oct, Dec)` fails with
`InvalidDigit('8')`, not `InvalidDigit('9')` — `'8'` is itself out of
range for octal and is scanned first; moreover a digit string whose valid
prefix already overflows 128 bits fails with `NumberOverflow` before the
scan ever reaches its first invalid character. -/
theorem c3_counterexample :
    convert_base "0o89".toList .oct .dec = .error (.invalidDigit '8') ∧
    convert_base "0o89".toList .oct .dec ≠ .error (.invalidDigit '9') ∧
    convert_base ('0' :: 'x' :: (List.replicate 33 'F' ++ ['G'])) .hex .dec =
      .error .numberOverflow := by
  refine ⟨rfl, ?_, rfl⟩
  intro h
  rw [show convert_base "0o89".toList .oct .dec = .error (.invalidDigit '8') from rfl] at h
  simp at h

/-- C3 (amended): `convert_base("0b12", Bin, Dec)` fails with
`InvalidDigit('2')` and `convert_base("0o89", Oct, Dec)` with
`InvalidDigit('8')`; in general the parse loop fails with `InvalidDigit`
carrying the first out-of-range character scanned left to right, provided
the accumulated value of the valid digits before it stays within 128 bits
(otherwise `NumberOverflow` preempts the scan). -/
theorem c3_first_invalid_digit :
    convert_base "0b12".toList .bin .dec = .error (.invalidDigit '2') ∧
    convert_base "0o89".toList .oct .dec = .error (.invalidDigit '8') ∧
    (∀ (b : ℕ) (pre : List Char) (c : Char) (suf : List Char),
      1 ≤ b → (∀ d ∈ pre, charValWrap d < b) → b ≤ charValWrap c →
      accVal b 0 pre < u128Bound →
      parseDigits b (pre ++ c :: suf) 0 = .error (.invalidDigit c)) :=
  ⟨rfl, rfl, fun b pre c suf hb hpre hc hlt =>
    parseDigits_invalid b hb pre c suf 0 hpre hc hlt⟩

/-- C3 (witness): the general first-invalid-digit statement applied to the
binary digit string `"12"`. -/
theorem c3_witness :
    1 ≤ 2 ∧ (∀ d ∈ ['1'], charValWrap d < 2) ∧ 2 ≤ charValWrap '2' ∧
    accVal 2 0 ['1'] < u128Bound ∧
    parseDigits 2 (['1'] ++ '2' :: []) 0 = .error (.invalidDigit '2') :=
  ⟨by decide, by decide, by decide, by decide,
    c3_first_invalid_digit.2.2 2 ['1'] '2' [] (by decide) (by decide) (by decide)
      (by decide)⟩

/-- C4: round trip — for every value representable in 128 bits and every
pair of supported radices, converting the canonical rendering of the value
in the first radix to the second radix succeeds, and converting that
result back reproduces the canonical rendering in the first radix. -/
theorem c4_round_trip :
    ∀ (v : ℕ) (r1 r2 : NumSystem), v < u128Bound →
      ∃ mid, convert_base (render r1 v) r1 r2 = .ok mid ∧
        convert_base mid r2 r1 = .ok (render r1 v) :=
  fun v r1 r2 hv =>
    ⟨render r2 v, convert_base_render v hv r1 r2, convert_base_render v hv r2 r1⟩

/-- C4 (witness): the round trip instantiated at the value 255 between
hexadecimal and decimal. -/
theorem c4_witness :
    255 < u128Bound ∧
    ∃ mid, convert_base (render .hex 255) .hex .dec = .ok mid ∧
      convert_base mid .dec .hex = .ok (render .hex 255) :=
  ⟨by decide, c4_round_trip 255 .hex .dec (by decide)⟩

/-- C5: prefix consistency — `convert_base("0xFF", Hex, Dec)` returns
`Ok("255")`, `convert_base("0xFF", Bin, Dec)` fails with `InvalidBase`,
and in general any input carrying a recognized `0x` / `0o` / `0b` prefix
whose implied radix differs from the declared source radix fails with
`InvalidBase`. -/
theorem c5_prefix_consistency :
    convert_base "0xFF".toList .hex .dec = .ok "255".toList ∧
    convert_base "0xFF".toList .bin .dec = .error .invalidBase ∧
    (∀ (num : List Char) (src tgt : NumSystem), hasMark num 'x' = true →
      src ≠ .hex → convert_base num src tgt = .error .invalidBase) ∧
    (∀ (num : List Char) (src tgt : NumSystem), hasMark num 'o' = true →
      src ≠ .oct → convert_base num src tgt = .error .invalidBase) ∧
    (∀ (num : List Char) (src tgt : NumSystem), hasMark num 'b' = true →
      src ≠ .bin → convert_base num src tgt = .error .invalidBase) := by
  refine ⟨?_, rfl, ?_, ?_, ?_⟩
  · unfold convert_base
    simp only [renderLoop_eq]
    rfl
  · intro num src tgt hm hs
    exact convert_base_of_resolve_error num src tgt _ (resolveRadix_mismatch_x num src hm hs)
  · intro num src tgt hm hs
    exact convert_base_of_resolve_error num src tgt _ (resolveRadix_mismatch_o num src hm hs)
  · intro num src tgt hm hs
    exact convert_base_of_resolve_error num src tgt _ (resolveRadix_mismatch_b num src hm hs)

/-- C5 (witness): the general mismatch statement applied to `"0xAB"`
declared as octal. -/
theorem c5_witness :
    hasMark "0xAB".toList 'x' = true ∧ NumSystem.oct ≠ NumSystem.hex ∧
    convert_base "0xAB".toList .oct .dec = .error .invalidBase :=
  ⟨by decide, by decide, c5_prefix_consistency.2.2.1 "0xAB".toList .oct .dec
    (by decide) (by decide)⟩

/-- C6: overflow boundary — 256 hexadecimal `F` digits (value
`16 ^ 256 − 1`, far above `2 ^ 128 − 1`) fail with `NumberOverflow`, the
maximum 128-bit value itself (32 `F` digits, `16 ^ 32 − 1 = 2 ^ 128 − 1`)
succeeds, and in general the parse loop rejects every all-valid digit
string whose value reaches `2 ^ 128` while accepting (with the exact
value) every one that stays below; overflow is detected by the explicit
checked-multiply and checked-add bounds in `parseDigits`. -/
theorem c6_overflow_boundary :
    convert_base ('0' :: 'x' :: List.replicate 256 'F') .hex .dec =
      .error .numberOverflow ∧
    convert_base ('0' :: 'x' :: List.replicate 32 'F') .hex .hex =
      .ok (List.replicate 32 'F') ∧
    (∀ (b : ℕ) (l : List Char), (∀ c ∈ l, charValWrap c < b) →
      u128Bound ≤ accVal b 0 l → parseDigits b l 0 = .error .numberOverflow) ∧
    (∀ (b : ℕ) (l : List Char), 1 ≤ b → (∀ c ∈ l, charValWrap c < b) →
      accVal b 0 l < u128Bound → parseDigits b l 0 = .ok (accVal b 0 l)) := by
  refine ⟨?_, ?_, ?_, ?_⟩
  · have hres : resolveRadix ('0' :: 'x' :: List.replicate 256 'F') .hex =
        .ok (List.replicate 256 'F', some .hex) := rfl
    have hvalid : ∀ c ∈ List.replicate 256 'F', charValWrap c < 16 := by
      intro c hc
      rw [List.eq_of_mem_replicate hc]
      decide
    have hval : accVal 16 0 (List.replicate 256 'F') = 16 ^ 256 - 1 := by
      rw [accVal_replicate_F]
      simp
    have hover : u128Bound ≤ accVal 16 0 (List.replicate 256 'F') := by
      rw [hval]
      decide
    exact convert_base_parse_error_any _ _ _ _ (some .hex) _ hres
      (parseDigits_overflow 16 (List.replicate 256 'F') 0 hvalid (by decide) hover)
  · have hres : resolveRadix ('0' :: 'x' :: List.replicate 32 'F') .hex =
        .ok (List.replicate 32 'F', some .hex) := rfl
    have hvalid : ∀ c ∈ List.replicate 32 'F', charValWrap c < 16 := by
      intro c hc
      rw [List.eq_of_mem_replicate hc]
      decide
    have hval : accVal 16 0 (List.replicate 32 'F') = 16 ^ 32 - 1 := by
      rw [accVal_replicate_F]
      simp
    have hlt : accVal 16 0 (List.replicate 32 'F') < u128Bound := by
      rw [hval]
      decide
    have hp : parseDigits 16 (List.replicate 32 'F') 0 = .ok (16 ^ 32 - 1) := by
      rw [parseDigits_ok 16 (by norm_num) _ 0 hvalid hlt, hval]
    rw [convert_base_parse_ok_any _ _ _ _ (some .hex) (16 ^ 32 - 1) hres hp,
      if_neg (by norm_num), renderLoop_eq, renderDigits_hex_F 32 (16 ^ 32 - 1) le_rfl]
    show (Except.ok ((List.replicate 32 'F').reverse) :
      Except ConversionError (List Char)) = Except.ok (List.replicate 32 'F')
    rw [List.reverse_replicate]
  · intro b l hvalid hover
    exact parseDigits_overflow b l 0 hvalid (by decide) hover
  · intro b l hb hvalid hlt
    exact parseDigits_ok b hb l 0 hvalid hlt

/-- C6 (witness): the general overflow statement applied to 33 hexadecimal
`F` digits (value `16 ^ 33 − 1 ≥ 2 ^ 128`), and the general acceptance
statement applied to `"FF"`. -/
theorem c6_witness :
    (∀ c ∈ List.replicate 33 'F', charValWrap c < 16) ∧
    u128Bound ≤ accVal 16 0 (List.replicate 33 'F') ∧
    parseDigits 16 (List.replicate 33 'F') 0 = .error .numberOverflow ∧
    accVal 16 0 ['F', 'F'] < u128Bound ∧
    parseDigits 16 ['F', 'F'] 0 = .ok (accVal 16 0 ['F', 'F']) :=
  ⟨by decide, by decide,
    c6_overflow_boundary.2.2.1 16 (List.replicate 33 'F') (by decide) (by decide),
    by decide,
    c6_overflow_boundary.2.2.2 16 ['F', 'F'] (by decide) (by decide) (by decide)⟩

/-- C7: the pipeline of `run` — the conversion result is padded first and
grouped second, and the three end-to-end scenarios print `"0255"`, `"10"`
and `"FF"` respectively. -/
theorem c7_pipeline :
    (∀ (cfg : Config) (r : List Char),
      convert_base cfg.number cfg.src_base cfg.tgt_base = .ok r →
      run cfg = (group_digits (pad_width r cfg.width) cfg.grouping).map Except.ok) ∧
    run ⟨.hex, .dec, "0xFF".toList, 0, 4⟩ = some (.ok "0255".toList) ∧
    run ⟨.bin, .dec, "1010".toList, 0, 0⟩ = some (.ok "10".toList) ∧
    run ⟨.dec, .hex, "255".toList, 0, 0⟩ = some (.ok "FF".toList) := by
  refine ⟨?_, ?_, ?_, ?_⟩
  · intro cfg r h
    unfold run
    rw [h]
  · unfold run convert_base
    simp only [renderLoop_eq]
    rfl
  · unfold run convert_base
    simp only [renderLoop_eq]
    rfl
  · unfold run convert_base
    simp only [renderLoop_eq]
    rfl

/-- C7 (witness): the composition statement applied to the binary-input
scenario. -/
theorem c7_witness :
    convert_base "1010".toList .bin .dec = .ok "10".toList ∧
    run ⟨.bin, .dec, "1010".toList, 0, 0⟩ =
      (group_digits (pad_width "10".toList 0) 0).map Except.ok := by
  have h : convert_base "1010".toList .bin .dec = .ok "10".toList := by
    unfold convert_base
    simp only [renderLoop_eq]
    rfl
  exact ⟨h, c7_pipeline.1 ⟨.bin, .dec, "1010".toList, 0, 0⟩ "10".toList h⟩

/-- C8 (counterexample): `group_digits` indexes bytes, not characters —
on the one-character input `"é"` (two UTF-8 bytes) with grouping 1 the
byte-indexed insert lands inside the character and panics (modelled by
`none`), so the claimed shape of "the result" fails for it; and on
`"aé"` with grouping 2 the loop returns `"a é"`, whose rightmost group
has one character instead of two. -/
theorem c8_counterexample :
    group_digits ['é'] 1 = none ∧
    group_digits ['a', 'é'] 2 = some ['a', ' ', 'é'] := by
  constructor
  · show (groupLoop 0 (0 + 1) ['é'].reverse).map List.reverse = none
    rw [show (['é'] : List Char).reverse = ['é'] from rfl,
      groupLoop_panic 0 (0 + 1) ['é'] (by decide) (by decide)]
    rfl
  · show (groupLoop 1 (1 + 1) ['a', 'é'].reverse).map List.reverse = some ['a', ' ', 'é']
    rw [show (['a', 'é'] : List Char).reverse = ['é', 'a'] from rfl,
      groupLoop_step 1 (1 + 1) ['é', 'a'] ['é', ' ', 'a'] (by decide) (by decide),
      show (1 + 1 + (1 + 1) + 1 : ℕ) = 5 from rfl,
      groupLoop_stop 1 5 ['é', ' ', 'a'] (by decide)]
    rfl

/-- C8 (amended): `group_digits(s, 0) = s` for every string; the two
concrete groupings hold; and for every ASCII, separator-free string and
every positive grouping the result is the space-joined decomposition into
groups counted from the right — all groups except the leftmost have
exactly the group size, the leftmost is nonempty and no longer than the
group size, no group contains a space, and the result has no leading or
trailing separator.  (On non-ASCII input the byte-indexed loop panics or
splits groups by bytes; on input that itself contains spaces the groups
are not recoverable from the output.) -/
theorem c8_grouping :
    (∀ s : List Char, group_digits s 0 = some s) ∧
    group_digits "1234567".toList 3 = some "1 234 567".toList ∧
    group_digits "123456".toList 3 = some "123 456".toList ∧
    (∀ (s : List Char) (gm : ℕ), (∀ c ∈ s, Char.utf8Size c = 1) →
      (∀ c ∈ s, c ≠ ' ') →
      ∃ p0 parts, group_digits s (gm + 1) = some (List.intercalate [' '] (p0 :: parts)) ∧
        p0.length ≤ gm + 1 ∧
        (∀ p ∈ parts, p.length = gm + 1) ∧
        (∀ p ∈ p0 :: parts, ∀ c ∈ p, c ≠ ' ') ∧
        (s ≠ [] → p0 ≠ [] ∧
          (List.intercalate [' '] (p0 :: parts)).head? ≠ some ' ' ∧
          (List.intercalate [' '] (p0 :: parts)).getLast? ≠ some ' ')) := by
  refine ⟨fun s => rfl, ?_, ?_, ?_⟩
  · show (groupLoop 2 (2 + 1) "1234567".toList.reverse).map List.reverse =
      some "1 234 567".toList
    rw [show "1234567".toList.reverse = "7654321".toList from rfl,
      groupLoop_step 2 (2 + 1) "7654321".toList "765 4321".toList (by decide) (by decide),
      show (2 + 1 + (2 + 1) + 1 : ℕ) = 7 from rfl,
      groupLoop_step 2 7 "765 4321".toList "765 432 1".toList (by decide) (by decide),
      show (7 + (2 + 1) + 1 : ℕ) = 11 from rfl,
      groupLoop_stop 2 11 "765 432 1".toList (by decide)]
    rfl
  · show (groupLoop 2 (2 + 1) "123456".toList.reverse).map List.reverse =
      some "123 456".toList
    rw [show "123456".toList.reverse = "654321".toList from rfl,
      groupLoop_step 2 (2 + 1) "654321".toList "654 321".toList (by decide) (by decide),
      show (2 + 1 + (2 + 1) + 1 : ℕ) = 7 from rfl,
      groupLoop_stop 2 7 "654 321".toList (by decide)]
    rfl
  · intro s gm ha hsp
    have hgd := group_digits_ascii s gm ha
    rw [reverse_intercalate ' ' (chunks gm s.reverse)] at hgd
    have hchne := chunks_ne_nil gm s.reverse
    have hpsne : ((chunks gm s.reverse).map List.reverse).reverse ≠ [] := by
      simp [hchne]
    obtain ⟨p0, parts, hps⟩ := List.exists_cons_of_ne_nil hpsne
    have hmem : ∀ p ∈ ((chunks gm s.reverse).map List.reverse).reverse,
        ∃ q ∈ chunks gm s.reverse, p = q.reverse := by
      intro p hp
      rw [List.mem_reverse, List.mem_map] at hp
      obtain ⟨q, hq1, hq2⟩ := hp
      exact ⟨q, hq1, hq2.symm⟩
    refine ⟨p0, parts, ?_, ?_, ?_, ?_, ?_⟩
    · rw [hps] at hgd
      exact hgd
    · have hhead : ((chunks gm s.reverse).map List.reverse).reverse.head? = some p0 := by
        rw [hps]
        rfl
      rw [List.head?_reverse, List.getLast?_map] at hhead
      match hq : (chunks gm s.reverse).getLast? with
      | none =>
        rw [hq] at hhead
        cases hhead
      | some q =>
        rw [hq] at hhead
        have h2 : some q.reverse = some p0 := hhead
        have h3 : q.reverse = p0 := by injection h2
        rw [← h3, List.length_reverse]
        exact chunks_getLast_le gm s.reverse q hq
    · have htail : parts = ((chunks gm s.reverse).dropLast.map List.reverse).reverse := by
        have h1 : ((chunks gm s.reverse).map List.reverse).reverse.tail = parts := by
          rw [hps]
          rfl
        rw [List.tail_reverse, ← List.map_dropLast] at h1
        exact h1.symm
      intro p hp
      rw [htail, List.mem_reverse, List.mem_map] at hp
      obtain ⟨q, hq1, hq2⟩ := hp
      rw [← hq2, List.length_reverse]
      exact chunks_dropLast_length gm s.reverse q hq1
    · intro p hp c hc
      rw [← hps] at hp
      obtain ⟨q, hq1, hq2⟩ := hmem p hp
      rw [hq2, List.mem_reverse] at hc
      have hcm := chunks_chars gm s.reverse q hq1 c hc
      rw [List.mem_reverse] at hcm
      exact hsp c hcm
    · intro hs
      have hLne : s.reverse ≠ [] := by simpa using hs
      have hnonempty : ∀ p ∈ p0 :: parts, p ≠ [] := by
        intro p hp
        rw [← hps] at hp
        obtain ⟨q, hq1, hq2⟩ := hmem p hp
        rw [hq2]
        simpa using chunks_all_ne_nil gm s.reverse hLne q hq1
      have hspfree : ∀ p ∈ p0 :: parts, ' ' ∉ p := by
        intro p hp hin
        rw [← hps] at hp
        obtain ⟨q, hq1, hq2⟩ := hmem p hp
        rw [hq2, List.mem_reverse] at hin
        have hcm := chunks_chars gm s.reverse q hq1 ' ' hin
        rw [List.mem_reverse] at hcm
        exact hsp ' ' hcm rfl
      obtain ⟨_, hh, hl⟩ := intercalate_sep_free (p0 :: parts) (by simp) hnonempty hspfree
      exact ⟨hnonempty p0 (List.mem_cons_self _ _), hh, hl⟩

/-- C8 (witness): the general grouping statement applied to `"1234"` with
group size 2. -/
theorem c8_witness :
    (∀ c ∈ "1234".toList, Char.utf8Size c = 1) ∧ (∀ c ∈ "1234".toList, c ≠ ' ') ∧
    (∃ p0 parts,
      group_digits "1234".toList (1 + 1) =
        some (List.intercalate [' '] (p0 :: parts)) ∧
      p0.length ≤ 1 + 1 ∧
      (∀ p ∈ parts, p.length = 1 + 1) ∧
      (∀ p ∈ p0 :: parts, ∀ c ∈ p, c ≠ ' ') ∧
      ("1234".toList ≠ [] → p0 ≠ [] ∧
        (List.intercalate [' '] (p0 :: parts)).head? ≠ some ' ' ∧
        (List.intercalate [' '] (p0 :: parts)).getLast? ≠ some ' ')) :=
  ⟨by decide, by decide, c8_grouping.2.2.2 "1234".toList 1 (by decide) (by decide)⟩

theorem byteLen_replicate_zero (k : ℕ) : byteLen (List.replicate k '0') = k := by
  rw [byteLen_ascii _ (by intro c hc; rw [List.eq_of_mem_replicate hc]; rfl)]
  simp

/-- C9: padding — `pad_width` is idempotent, its output length (Rust
`String::len`, i.e. bytes) is the maximum of the input length and the
width, an input at least as long as the width is returned unchanged, a
shorter one gets exactly `width − length` zero characters prepended, and
the empty string padded to width `w` is `w` zeros. -/
theorem c9_padding :
    ∀ (s : List Char) (w : ℕ),
      pad_width (pad_width s w) w = pad_width s w ∧
      byteLen (pad_width s w) = max (byteLen s) w ∧
      (w ≤ byteLen s → pad_width s w = s) ∧
      (byteLen s < w → pad_width s w = List.replicate (w - byteLen s) '0' ++ s) ∧
      pad_width [] w = List.replicate w '0' := by
  intro s w
  have hlen : byteLen (pad_width s w) = max (byteLen s) w := by
    rw [pad_width]
    by_cases h : byteLen s < w
    · rw [if_pos h, byteLen_append, byteLen_replicate_zero]
      omega
    · rw [if_neg h]
      omega
  refine ⟨?_, hlen, ?_, ?_, ?_⟩
  · rw [pad_width]
    rw [if_neg (by omega)]
  · intro h
    rw [pad_width, if_neg (by omega)]
  · intro h
    rw [pad_width, if_pos h]
  · rw [pad_width]
    by_cases h : byteLen ([] : List Char) < w
    · rw [if_pos h]
      rw [show byteLen ([] : List Char) = 0 from rfl]
      simp
    · have hw : w = 0 := by
        rw [show byteLen ([] : List Char) = 0 from rfl] at h
        omega
      rw [if_neg h, hw]
      rfl

/-- C9 (witness): the padding statements applied to `"42"` with width 4. -/
theorem c9_witness :
    byteLen "42".toList < 4 ∧
    pad_width "42".toList 4 = List.replicate (4 - byteLen "42".toList) '0' ++ "42".toList :=
  ⟨by decide, (c9_padding "42".toList 4).2.2.2.1 (by decide)⟩

/-- C10: `InvalidBase` only arises from the prefix check — the render loop
never takes its digit-table error branch (it returns exactly the collected
remainder digits), every successful output consists only of the sixteen
uppercase table digits, and an `InvalidBase` failure of `convert_base`
always comes from a failed prefix resolution. -/
theorem c10_invalid_base_only_from_prefix_step :
    (∀ (t : NumSystem) (n : ℕ), renderLoop t n = .ok (renderDigits t n n)) ∧
    (∀ (num : List Char) (src tgt : NumSystem) (out : List Char),
      convert_base num src tgt = .ok out → ∀ c ∈ out, c ∈ digits) ∧
    (∀ (num : List Char) (src tgt : NumSystem),
      convert_base num src tgt = .error .invalidBase →
      resolveRadix num src = .error .invalidBase) :=
  ⟨renderLoop_eq, convert_base_ok_chars, convert_base_invalidBase⟩

/-- C10 (witness): output-charset statement applied to `convert_base("0",
Hex, Dec)`. -/
theorem c10_witness :
    convert_base ['0'] .hex .dec = .ok ['0'] ∧ ∀ c ∈ ['0'], c ∈ digits :=
  ⟨rfl, c10_invalid_base_only_from_prefix_step.2.1 ['0'] .hex .dec ['0'] rfl⟩
